import Mathlib

/-!
# util/core.cpp : `die` and `hash`

A shallow embedding of the two free functions of `src/util/core.cpp`.

* `hash` reads a NUL-terminated string through a `const char*`.  Memory is a
  map from addresses to bytes, a pointer is an address, and the recursion of
  the source is bounded by an explicit call budget (`fuel`): one unit is
  consumed by every activation of `hash`.
* `size_t` arithmetic is arithmetic on `Nat` reduced modulo `2 ^ sizeBits`.
* `die` is a step on an explicit process state (`World`) whose result says
  whether control returned to the caller or the process exited.
-/

namespace Magog

/-! ## Target and memory -/

/-- A byte of memory. -/
abbrev Byte := Fin 256

/-- Byte-addressed memory: the byte stored at every address. -/
abbrev Memory := Nat → Byte

/-- The compilation target: the width of `size_t` in bits and the signedness of
plain `char`.  The unsigned literals `2166136261u` and `16777619u` of the source
are 32-bit values, so every target has a `size_t` of at least 32 bits. -/
structure Target where
  sizeBits : Nat
  charSigned : Bool
  wide : 32 ≤ sizeBits

/-- An LP64 target (64-bit `size_t`) with signed `char`. -/
def lp64 : Target := ⟨64, true, by decide⟩

/-- An ILP32 target (32-bit `size_t`) with signed `char`. -/
def ilp32 : Target := ⟨32, true, by decide⟩

/-- An ILP32 target (32-bit `size_t`) with unsigned `char`. -/
def ilp32u : Target := ⟨32, false, by decide⟩

/-- The value of the expression `*s` once converted to `size_t` for the `^` of
the source: a `char` is promoted to `int` and then converted to `size_t`, so a
byte of code at least 128 is sign-extended when `char` is signed. -/
def charToSize (t : Target) (c : Byte) : Nat :=
  if t.charSigned && decide (128 ≤ c.val) then 2 ^ t.sizeBits - 256 + c.val else c.val

/-- One evaluation of `(next ^ *s) * 16777619u` in `size_t` arithmetic. -/
def foldChar (t : Target) (next : Nat) (c : Byte) : Nat :=
  ((next ^^^ charToSize t c) * 16777619) % 2 ^ t.sizeBits

/-! ## `hash` -/

/-- The function `hash` of `core.cpp`:

```
size_t hash(const char* s) {
  size_t next = *s ? hash(s + 1) : 2166136261u;
  return (next ^ *s) * 16777619u;
}
```

`s` is an address of `mem`.  `fuel` bounds the number of nested activations;
`none` means the budget ran out before the terminator was reached. -/
def hash (t : Target) (mem : Memory) : Nat → Nat → Option Nat
  | 0, _ => none
  | fuel + 1, s =>
    (if mem s ≠ 0 then hash t mem fuel (s + 1) else some 2166136261).map
      fun next => foldChar t next (mem s)

/-- The address `s` of `mem` holds a NUL-terminated string of `n` characters:
the `n` bytes from `s` on are not NUL and the byte after them is. -/
def IsCStr (mem : Memory) (s n : Nat) : Prop :=
  (∀ i, i < n → mem (s + i) ≠ 0) ∧ mem (s + n) = 0

instance (mem : Memory) (s n : Nat) : Decidable (IsCStr mem s n) := by
  unfold IsCStr; infer_instance

/-- The characters of the string at `s`, terminator excluded. -/
def cstrBytes (mem : Memory) (s : Nat) : Nat → List Byte
  | 0 => []
  | n + 1 => mem s :: cstrBytes mem (s + 1) n

/-- A memory that holds the bytes `bs` from address `base` on and NUL
everywhere else. -/
def memOf (base : Nat) (bs : List Byte) : Memory :=
  fun a => if base ≤ a then bs.getD (a - base) 0 else 0

/-- The list view of `hash`: the value computed from the characters of a
string, first character at the head of the list.  The empty list is the string
that consists of the terminator only. -/
def hashBytes (t : Target) : List Byte → Nat
  | [] => foldChar t 2166136261 0
  | c :: cs => foldChar t (hashBytes t cs) c

/-! ## Reference algorithms of the specification -/

/-- Canonical 32-bit FNV-1a over a byte sequence, first byte to last byte:
offset basis `2166136261`, then XOR the byte and multiply by the prime
`16777619` modulo `2 ^ 32`. -/
def fnv1a32 (bs : List Byte) : Nat :=
  bs.foldl (fun h b => ((h ^^^ b.val) * 16777619) % 2 ^ 32) 2166136261

/-- The forward FNV-1a fold carried out in the `size_t` arithmetic of a target:
as `fnv1a32`, but reduced modulo `2 ^ sizeBits` and with every byte converted
to `size_t` the way the target converts a `char`. -/
def fnv1aSize (t : Target) (bs : List Byte) : Nat :=
  bs.foldl (fun h b => ((h ^^^ charToSize t b) * 16777619) % 2 ^ t.sizeBits) 2166136261

/-- The body of the iterative accumulator loop: `k` elements remain, the next
one to process is `s[k - 1]`, the last one is `s[0]`. -/
def hashLoopFrom (t : Target) (mem : Memory) (s : Nat) : Nat → Nat → Nat
  | 0, acc => acc
  | k + 1, acc =>
    hashLoopFrom t mem s k (((acc ^^^ charToSize t (mem (s + k))) * 16777619) % 2 ^ t.sizeBits)

/-- The iterative accumulator loop of the design notes for a string of `n`
characters at `s`: the accumulator starts at `2166136261` and the loop walks
from `s[n]`, the terminator, back to `s[0]`. -/
def hashLoop (t : Target) (mem : Memory) (s n : Nat) : Nat :=
  hashLoopFrom t mem s (n + 1) 2166136261

/-! ## `die` -/

/-- The two build variants of `die`: `win32` when `__WIN32__` is defined. -/
inductive Platform where
  | console
  | win32
  deriving DecidableEq, Repr

/-- The observable state of the process: what was written to the standard
streams and the message boxes shown so far, each as (text, caption). -/
structure World where
  stdout : List Byte
  stderr : List Byte
  dialogs : List (List Byte × List Byte)
  deriving DecidableEq, Repr

/-- How a call ends: control returns to the caller, or the process has exited
with a status. -/
inductive Outcome where
  | returned (w : World)
  | exited (w : World) (status : Int)
  deriving DecidableEq, Repr

/-- Sequencing: the continuation `k` runs only if control returned. -/
def Outcome.andThen (o : Outcome) (k : World → Outcome) : Outcome :=
  match o with
  | Outcome.returned w => k w
  | Outcome.exited w status => Outcome.exited w status

/-- The call `fprintf(stderr, "%s\n", str)`: the characters of `str` and one
newline are appended to the standard error stream. -/
def fprintfStderr (str : List Byte) (w : World) : World :=
  { w with stderr := w.stderr ++ str ++ [10] }

/-- The call `MessageBox(NULL, text, caption, MB_OK)`: a modal box is shown and
dismissed. -/
def messageBox (text caption : List Byte) (w : World) : World :=
  { w with dialogs := w.dialogs ++ [(text, caption)] }

/-- The call `exit(status)` of the C library. -/
def exit (status : Int) (w : World) : Outcome :=
  Outcome.exited w status

/-- The bytes of the caption `"Error"`. -/
def errorCaption : List Byte := [69, 114, 114, 111, 114]

/-- The function `die` of `core.cpp`; `str` is the characters of the message
before its terminator.

```
void die(const char* str) {
  #ifdef __WIN32__
  MessageBox(NULL, str, "Error", MB_OK);
  #else
  fprintf(stderr, "%s\n", str);
  #endif
  exit(1);
}
```
-/
def die (p : Platform) (str : List Byte) (w : World) : Outcome :=
  (Outcome.returned
    (match p with
     | Platform.win32 => messageBox str errorCaption w
     | Platform.console => fprintfStderr str w)).andThen (exit 1)

/-! ## Basic facts about the embedding -/

theorem charToSize_zero (t : Target) : charToSize t 0 = 0 := by
  simp [charToSize]

theorem charToSize_of_lt (t : Target) (c : Byte) (h : c.val < 128) :
    charToSize t c = c.val := by
  have : ¬ 128 ≤ c.val := by omega
  simp [charToSize, this]

theorem charToSize_of_unsigned (t : Target) (c : Byte) (h : t.charSigned = false) :
    charToSize t c = c.val := by
  simp [charToSize, h]

theorem foldChar_lt (t : Target) (next : Nat) (c : Byte) :
    foldChar t next c < 2 ^ t.sizeBits :=
  Nat.mod_lt _ (Nat.two_pow_pos _)

theorem hash_succ (t : Target) (mem : Memory) (fuel s : Nat) :
    hash t mem (fuel + 1) s =
      (if mem s ≠ 0 then hash t mem fuel (s + 1) else some 2166136261).map
        fun next => foldChar t next (mem s) := rfl

theorem hash_succ_of_nul (t : Target) (mem : Memory) (fuel s : Nat) (h : mem s = 0) :
    hash t mem (fuel + 1) s = some (foldChar t 2166136261 0) := by
  simp [hash_succ, h]

theorem hash_succ_of_char (t : Target) (mem : Memory) (fuel s : Nat) (h : mem s ≠ 0) :
    hash t mem (fuel + 1) s = (hash t mem fuel (s + 1)).map fun next => foldChar t next (mem s) := by
  simp [hash_succ, h]

theorem isCStr_zero_iff (mem : Memory) (s : Nat) : IsCStr mem s 0 ↔ mem s = 0 := by
  simp [IsCStr]

theorem IsCStr.head {mem : Memory} {s n : Nat} (h : IsCStr mem s (n + 1)) : mem s ≠ 0 := by
  simpa using h.1 0 (Nat.succ_pos n)

theorem IsCStr.tail {mem : Memory} {s n : Nat} (h : IsCStr mem s (n + 1)) :
    IsCStr mem (s + 1) n := by
  refine ⟨fun i hi => ?_, ?_⟩
  · have := h.1 (i + 1) (by omega)
    rwa [show s + 1 + i = s + (i + 1) by omega]
  · have := h.2
    rwa [show s + 1 + n = s + (n + 1) by omega]

/-- With a budget of one activation per character and one for the terminator,
`hash` returns the value of the list view on the characters of the string. -/
theorem hash_eq_hashBytes (t : Target) (mem : Memory) :
    ∀ (n s : Nat), IsCStr mem s n → hash t mem (n + 1) s = some (hashBytes t (cstrBytes mem s n))
  | 0, s, h => by
    rw [hash_succ_of_nul t mem 0 s ((isCStr_zero_iff mem s).1 h)]
    rfl
  | n + 1, s, h => by
    rw [hash_succ_of_char t mem (n + 1) s h.head, hash_eq_hashBytes t mem n (s + 1) h.tail]
    rfl

/-- A larger budget does not change a returned value. -/
theorem hash_fuel_mono (t : Target) (mem : Memory) :
    ∀ (fuel fuel2 s v : Nat), hash t mem fuel s = some v → fuel ≤ fuel2 →
      hash t mem fuel2 s = some v
  | 0, _, _, _, h, _ => by simp [hash] at h
  | fuel + 1, 0, _, _, _, hle => by omega
  | fuel + 1, fuel2 + 1, s, v, h, hle => by
    by_cases hc : mem s = 0
    · rw [hash_succ_of_nul t mem _ s hc] at h ⊢
      exact h
    · rw [hash_succ_of_char t mem _ s hc] at h ⊢
      cases hr : hash t mem fuel (s + 1) with
      | none => simp [hr] at h
      | some u =>
        rw [hash_fuel_mono t mem fuel fuel2 (s + 1) u hr (by omega)]
        rw [hr] at h
        exact h

/-- A budget of at most one activation per character is exhausted before the
terminator is reached. -/
theorem hash_none_of_le (t : Target) (mem : Memory) :
    ∀ (n fuel s : Nat), IsCStr mem s n → fuel ≤ n → hash t mem fuel s = none
  | _, 0, _, _, _ => rfl
  | 0, fuel + 1, _, _, hle => by omega
  | n + 1, fuel + 1, s, h, hle => by
    rw [hash_succ_of_char t mem fuel s h.head,
      hash_none_of_le t mem n fuel (s + 1) h.tail (by omega)]
    rfl

/-- The characters of two strings with equal bytes up to the terminator. -/
theorem cstrBytes_congr (mem1 mem2 : Memory) :
    ∀ (n s1 s2 : Nat), (∀ i, i < n → mem1 (s1 + i) = mem2 (s2 + i)) →
      cstrBytes mem1 s1 n = cstrBytes mem2 s2 n
  | 0, _, _, _ => rfl
  | n + 1, s1, s2, h => by
    have h0 : mem1 s1 = mem2 s2 := by simpa using h 0 (Nat.succ_pos n)
    have ht : cstrBytes mem1 (s1 + 1) n = cstrBytes mem2 (s2 + 1) n :=
      cstrBytes_congr mem1 mem2 n (s1 + 1) (s2 + 1) fun i hi => by
        have := h (i + 1) (by omega)
        rwa [show s1 + 1 + i = s1 + (i + 1) by omega, show s2 + 1 + i = s2 + (i + 1) by omega]
    simp [cstrBytes, h0, ht]

theorem hashBytes_eq_fnv1aSize (t : Target) :
    ∀ cs : List Byte, hashBytes t cs = fnv1aSize t (0 :: cs.reverse)
  | [] => by simp [hashBytes, fnv1aSize, foldChar]
  | c :: cs => by
    have ih := hashBytes_eq_fnv1aSize t cs
    simp only [fnv1aSize, List.reverse_cons, List.foldl_cons, List.foldl_append,
      List.foldl_nil] at ih ⊢
    simp only [hashBytes, ih, foldChar]

theorem hashLoopFrom_succ (t : Target) (mem : Memory) (s : Nat) :
    ∀ (k acc : Nat), hashLoopFrom t mem s (k + 1) acc =
      foldChar t (hashLoopFrom t mem (s + 1) k acc) (mem s)
  | 0, acc => by simp [hashLoopFrom, foldChar]
  | k + 1, acc => by
    rw [hashLoopFrom, hashLoopFrom_succ t mem s k]
    conv_rhs => rw [hashLoopFrom]
    rw [show s + 1 + k = s + (k + 1) by omega]

theorem hashBytes_eq_hashLoop (t : Target) (mem : Memory) :
    ∀ (n s : Nat), IsCStr mem s n → hashBytes t (cstrBytes mem s n) = hashLoop t mem s n
  | 0, s, h => by
    have h0 : mem s = 0 := (isCStr_zero_iff mem s).1 h
    simp [hashLoop, hashLoopFrom, hashBytes, cstrBytes, foldChar, h0]
  | n + 1, s, h => by
    rw [hashLoop, hashLoopFrom_succ t mem s (n + 1)]
    have ih := hashBytes_eq_hashLoop t mem n (s + 1) h.tail
    rw [hashLoop] at ih
    rw [← ih]
    rfl

/-- With any budget that covers the characters and the terminator, `hash`
returns the value of the list view. -/
theorem hash_of_fuel (t : Target) (mem : Memory) (s n fuel : Nat) (h : IsCStr mem s n)
    (hf : n + 1 ≤ fuel) : hash t mem fuel s = some (hashBytes t (cstrBytes mem s n)) :=
  hash_fuel_mono t mem (n + 1) fuel s _ (hash_eq_hashBytes t mem n s h) hf

theorem foldChar_basis_nul (t : Target) :
    foldChar t 2166136261 0 = 2166136261 * 16777619 % 2 ^ t.sizeBits := by
  simp [foldChar, charToSize_zero]

theorem fnv1aSize_eq_fnv1a32 (t : Target) (hs : t.sizeBits = 32) (hc : t.charSigned = false)
    (bs : List Byte) : fnv1aSize t bs = fnv1a32 bs := by
  simp [fnv1aSize, fnv1a32, charToSize, hs, hc]

theorem xor_mod_two_pow (a b k : Nat) : (a ^^^ b) % 2 ^ k = (a % 2 ^ k) ^^^ (b % 2 ^ k) := by
  apply Nat.eq_of_testBit_eq
  intro i
  by_cases hi : i < k <;> simp [Nat.testBit_mod_two_pow, Nat.testBit_xor, hi]

/-- The low 32 bits of one fold step on a character of code below 128 only
depend on the low 32 bits of the accumulator. -/
theorem foldChar_mod_two_pow_32 (t : Target) (next : Nat) (c : Byte) (hc : c.val < 128) :
    foldChar t next c % 2 ^ 32 = ((next % 2 ^ 32 ^^^ c.val) * 16777619) % 2 ^ 32 := by
  have hdvd : 2 ^ 32 ∣ 2 ^ t.sizeBits := Nat.pow_dvd_pow 2 t.wide
  have hc32 : c.val % 2 ^ 32 = c.val := Nat.mod_eq_of_lt (by omega)
  rw [foldChar, charToSize_of_lt t c hc, Nat.mod_mod_of_dvd _ hdvd, Nat.mul_mod,
    xor_mod_two_pow, hc32]
  conv_rhs => rw [Nat.mul_mod, xor_mod_two_pow, Nat.mod_mod, hc32]

/-! ## The claims -/

/-- C1 (as stated, refuted): on the empty string `hash` does not return the
offset basis `2166136261`; with a 32-bit `size_t` it returns `84696351` and with
a 64-bit `size_t` it returns `36342608889142559`. -/
theorem hash_empty_ne_offset_basis :
    IsCStr (memOf 0 []) 0 0 ∧
    hash ilp32u (memOf 0 []) 1 0 = some 84696351 ∧
    hash lp64 (memOf 0 []) 1 0 = some 36342608889142559 ∧
    hash ilp32u (memOf 0 []) 1 0 ≠ some 2166136261 ∧
    hash lp64 (memOf 0 []) 1 0 ≠ some 2166136261 := by
  decide

/-- C1 (amended): on the empty string `hash` returns the offset basis folded
once with the terminator, `(2166136261 XOR 0) * 16777619` modulo `2 ^ w` for a
`size_t` of `w` bits: `84696351` for `w = 32` and `36342608889142559` for
`w = 64`.  The offset basis is the seed of the accumulator, not the result. -/
theorem hash_empty_value (t : Target) (mem : Memory) (s fuel : Nat) (h : IsCStr mem s 0) :
    hash t mem (fuel + 1) s = some ((2166136261 ^^^ 0) * 16777619 % 2 ^ t.sizeBits) ∧
    (t.sizeBits = 32 → hash t mem (fuel + 1) s = some 84696351) ∧
    (t.sizeBits = 64 → hash t mem (fuel + 1) s = some 36342608889142559) := by
  have h0 : hash t mem (fuel + 1) s = some (2166136261 * 16777619 % 2 ^ t.sizeBits) := by
    rw [hash_succ_of_nul t mem fuel s ((isCStr_zero_iff mem s).1 h), foldChar_basis_nul]
  refine ⟨by simpa using h0, fun hw => ?_, fun hw => ?_⟩
  · rw [h0, hw]; norm_num
  · rw [h0, hw]; norm_num

theorem hash_empty_value_witness :
    IsCStr (memOf 0 []) 0 0 ∧
    (hash lp64 (memOf 0 []) (0 + 1) 0 = some ((2166136261 ^^^ 0) * 16777619 % 2 ^ lp64.sizeBits) ∧
     (lp64.sizeBits = 32 → hash lp64 (memOf 0 []) (0 + 1) 0 = some 84696351) ∧
     (lp64.sizeBits = 64 → hash lp64 (memOf 0 []) (0 + 1) 0 = some 36342608889142559)) :=
  ⟨by decide, hash_empty_value lp64 (memOf 0 []) 0 0 (by decide)⟩

/-- C2 (as stated, refuted): for the string `"ab"`, with a 32-bit `size_t` and
unsigned `char`, `hash` differs from the standard 32-bit FNV-1a hash of the
reversed string `"ba"`; so it does with a 64-bit `size_t`. -/
theorem hash_ne_fnv1a32_reverse :
    IsCStr (memOf 0 [97, 98]) 0 2 ∧
    cstrBytes (memOf 0 [97, 98]) 0 2 = [97, 98] ∧
    hash ilp32u (memOf 0 [97, 98]) 3 0 ≠ some (fnv1a32 (cstrBytes (memOf 0 [97, 98]) 0 2).reverse) ∧
    hash lp64 (memOf 0 [97, 98]) 3 0 ≠ some (fnv1a32 (cstrBytes (memOf 0 [97, 98]) 0 2).reverse) := by
  decide

/-- C2 (amended): for every NUL-terminated string `s`, `hash(s)` equals the
forward FNV-1a fold (offset basis `2166136261`, prime `16777619`) carried out
modulo `2 ^ w` for the `w`-bit `size_t`, with each `char` converted to `size_t`,
over the terminator followed by the reverse of `s`, which is the terminated
string read backwards.  With a 32-bit `size_t` and unsigned `char` this is the
standard 32-bit FNV-1a hash of NUL followed by the reverse of `s`. -/
theorem hash_eq_fnv1a_of_terminated_reverse (t : Target) (mem : Memory) (s n fuel : Nat)
    (h : IsCStr mem s n) (hf : n + 1 ≤ fuel) :
    hash t mem fuel s = some (fnv1aSize t (0 :: (cstrBytes mem s n).reverse)) ∧
    (t.sizeBits = 32 → t.charSigned = false →
      hash t mem fuel s = some (fnv1a32 (0 :: (cstrBytes mem s n).reverse))) := by
  have h0 := hash_of_fuel t mem s n fuel h hf
  rw [hashBytes_eq_fnv1aSize] at h0
  exact ⟨h0, fun hs hc => by rw [h0, fnv1aSize_eq_fnv1a32 t hs hc]⟩

theorem hash_eq_fnv1a_of_terminated_reverse_witness :
    IsCStr (memOf 0 [97, 98]) 0 2 ∧ 2 + 1 ≤ 3 ∧
    (hash ilp32u (memOf 0 [97, 98]) 3 0 =
        some (fnv1aSize ilp32u (0 :: (cstrBytes (memOf 0 [97, 98]) 0 2).reverse)) ∧
     (ilp32u.sizeBits = 32 → ilp32u.charSigned = false →
        hash ilp32u (memOf 0 [97, 98]) 3 0 =
          some (fnv1a32 (0 :: (cstrBytes (memOf 0 [97, 98]) 0 2).reverse)))) :=
  ⟨by decide, by decide,
    hash_eq_fnv1a_of_terminated_reverse ilp32u (memOf 0 [97, 98]) 0 2 3 (by decide) (by decide)⟩

/-- C3 (as stated, refuted): for the string `"a"`, `hash` does not return
`(2166136261 XOR 97) * 16777619 mod 2^32 = 3826002220`; it returns `1886858586`
with a 32-bit `size_t` and `3766795653166345562` with a 64-bit `size_t`. -/
theorem hash_single_a_ne_one_fold :
    IsCStr (memOf 0 [97]) 0 1 ∧
    hash ilp32u (memOf 0 [97]) 2 0 = some 1886858586 ∧
    hash lp64 (memOf 0 [97]) 2 0 = some 3766795653166345562 ∧
    hash ilp32u (memOf 0 [97]) 2 0 ≠ some ((2166136261 ^^^ 97) * 16777619 % 2 ^ 32) ∧
    hash lp64 (memOf 0 [97]) 2 0 ≠ some ((2166136261 ^^^ 97) * 16777619 % 2 ^ 32) := by
  decide

/-- C3 (amended): for the single-character string `"a"` (character code 97),
`hash` returns `((2166136261 * 16777619 mod 2^w) XOR 97) * 16777619 mod 2^w` for
a `size_t` of `w` bits: the terminator is folded before the character. -/
theorem hash_single_a_value (t : Target) (mem : Memory) (s fuel : Nat) (h : IsCStr mem s 1)
    (ha : mem s = 97) (hf : 2 ≤ fuel) :
    hash t mem fuel s =
      some (((2166136261 * 16777619 % 2 ^ t.sizeBits) ^^^ 97) * 16777619 % 2 ^ t.sizeBits) := by
  rw [hash_of_fuel t mem s 1 fuel h hf]
  have hv : charToSize t (97 : Byte) = 97 := charToSize_of_lt t 97 (by decide)
  simp only [cstrBytes, hashBytes, ha, foldChar_basis_nul]
  simp only [foldChar, hv]

theorem hash_single_a_value_witness :
    IsCStr (memOf 0 [97]) 0 1 ∧ memOf 0 [97] 0 = 97 ∧ 2 ≤ 2 ∧
    hash lp64 (memOf 0 [97]) 2 0 =
      some (((2166136261 * 16777619 % 2 ^ lp64.sizeBits) ^^^ 97) * 16777619
        % 2 ^ lp64.sizeBits) :=
  ⟨by decide, by decide, by decide,
    hash_single_a_value lp64 (memOf 0 [97]) 0 2 (by decide) (by decide) (by decide)⟩

/-- C4 (as stated, refuted): with the 64-bit `size_t` of an LP64 target the
value returned for the empty string, `36342608889142559`, is not below
`2 ^ 32`. -/
theorem hash_lp64_not_lt_two_pow_32 :
    IsCStr (memOf 0 []) 0 0 ∧ lp64.sizeBits = 64 ∧
    ¬ ∃ v, hash lp64 (memOf 0 []) 1 0 = some v ∧ v < 2 ^ 32 := by
  refine ⟨by decide, rfl, ?_⟩
  rintro ⟨v, hv, hlt⟩
  have h0 : hash lp64 (memOf 0 []) 1 0 = some 36342608889142559 := by decide
  rw [h0] at hv
  cases hv
  exact absurd hlt (by decide)

/-- C4 (amended): for every NUL-terminated string `s`, `hash(s)` returns a value
of its return type `size_t`, `0 <= hash(s) < 2 ^ w` for a `size_t` of `w` bits;
the value is a 32-bit integer when `size_t` is 32 bits wide, and on an LP64
target the bound is `2 ^ 64`. -/
theorem hash_lt_two_pow_sizeBits (t : Target) (mem : Memory) (s n fuel : Nat)
    (h : IsCStr mem s n) (hf : n + 1 ≤ fuel) :
    ∃ v, hash t mem fuel s = some v ∧ 0 ≤ v ∧ v < 2 ^ t.sizeBits ∧
      (t.sizeBits = 32 → v < 2 ^ 32) ∧ (t.sizeBits = 64 → v < 2 ^ 64) := by
  refine ⟨_, hash_of_fuel t mem s n fuel h hf, Nat.zero_le _, ?_⟩
  have hlt : hashBytes t (cstrBytes mem s n) < 2 ^ t.sizeBits := by
    cases cstrBytes mem s n with
    | nil => exact foldChar_lt t _ _
    | cons c cs => exact foldChar_lt t _ _
  exact ⟨hlt, fun hw => hw ▸ hlt, fun hw => hw ▸ hlt⟩

theorem hash_lt_two_pow_sizeBits_witness :
    IsCStr (memOf 0 [97]) 0 1 ∧ 1 + 1 ≤ 2 ∧
    ∃ v, hash lp64 (memOf 0 [97]) 2 0 = some v ∧ 0 ≤ v ∧ v < 2 ^ lp64.sizeBits ∧
      (lp64.sizeBits = 32 → v < 2 ^ 32) ∧ (lp64.sizeBits = 64 → v < 2 ^ 64) :=
  ⟨by decide, by decide,
    hash_lt_two_pow_sizeBits lp64 (memOf 0 [97]) 0 1 2 (by decide) (by decide)⟩

/-- C5: for every message, on the console and on the windowed variant, `die`
ends in the state "exited with status 1": it never returns control to its
caller, and no continuation sequenced after the call runs. -/
theorem die_exits_with_status_one (p : Platform) (str : List Byte) (w : World) :
    (∃ w2, die p str w = Outcome.exited w2 1) ∧
    (∀ w2, die p str w ≠ Outcome.returned w2) ∧
    (∀ k : World → Outcome, (die p str w).andThen k = die p str w) := by
  cases p <;> simp [die, Outcome.andThen, exit]

/-- C6: `hash` is total on NUL-terminated strings and has no failure branch.
For a string of `n` characters it returns a value with a budget of `n + 1`
activations (the outer call and exactly one recursive call per character before
the terminator), every larger budget returns the same value, and no smaller
budget reaches the terminator.  The activation at each of the `n` characters
makes one recursive call, on the next address, and the activation at the
terminator makes none. -/
theorem hash_total (t : Target) (mem : Memory) (s n : Nat) (h : IsCStr mem s n) :
    (∃ v, hash t mem (n + 1) s = some v) ∧
    (∀ fuel, n + 1 ≤ fuel → hash t mem fuel s = hash t mem (n + 1) s) ∧
    (∀ fuel, fuel ≤ n → hash t mem fuel s = none) ∧
    (∀ i fuel, i < n → hash t mem (fuel + 1) (s + i) =
      (hash t mem fuel (s + i + 1)).map fun next => foldChar t next (mem (s + i))) ∧
    (∀ fuel, hash t mem (fuel + 1) (s + n) = some (foldChar t 2166136261 0)) := by
  refine ⟨⟨_, hash_eq_hashBytes t mem n s h⟩, fun fuel hf => ?_, fun fuel hf => ?_,
    fun i fuel hi => ?_, fun fuel => ?_⟩
  · rw [hash_of_fuel t mem s n fuel h hf, hash_eq_hashBytes t mem n s h]
  · exact hash_none_of_le t mem n fuel s h hf
  · exact hash_succ_of_char t mem fuel (s + i) (h.1 i hi)
  · exact hash_succ_of_nul t mem fuel (s + n) h.2

theorem hash_total_witness :
    IsCStr (memOf 0 [97, 98]) 0 2 ∧
    ((∃ v, hash lp64 (memOf 0 [97, 98]) (2 + 1) 0 = some v) ∧
     (∀ fuel, 2 + 1 ≤ fuel →
        hash lp64 (memOf 0 [97, 98]) fuel 0 = hash lp64 (memOf 0 [97, 98]) (2 + 1) 0) ∧
     (∀ fuel, fuel ≤ 2 → hash lp64 (memOf 0 [97, 98]) fuel 0 = none) ∧
     (∀ i fuel, i < 2 → hash lp64 (memOf 0 [97, 98]) (fuel + 1) (0 + i) =
        (hash lp64 (memOf 0 [97, 98]) fuel (0 + i + 1)).map
          fun next => foldChar lp64 next (memOf 0 [97, 98] (0 + i))) ∧
     (∀ fuel, hash lp64 (memOf 0 [97, 98]) (fuel + 1) (0 + 2) =
        some (foldChar lp64 2166136261 0))) :=
  ⟨by decide, hash_total lp64 (memOf 0 [97, 98]) 0 2 (by decide)⟩

/-- C7: `hash` is deterministic and depends only on the content of its
argument.  Two strings with equal characters up to the terminator, at any two
addresses of any two memories (so whatever the bytes after the terminator),
hash to the same returned value; this holds for non-empty strings and for the
empty string alike. -/
theorem hash_deterministic (t : Target) (mem1 mem2 : Memory) (s1 s2 n fuel1 fuel2 : Nat)
    (h1 : IsCStr mem1 s1 n) (h2 : IsCStr mem2 s2 n)
    (heq : ∀ i, i < n → mem1 (s1 + i) = mem2 (s2 + i))
    (hf1 : n + 1 ≤ fuel1) (hf2 : n + 1 ≤ fuel2) :
    ∃ v, hash t mem1 fuel1 s1 = some v ∧ hash t mem2 fuel2 s2 = some v := by
  refine ⟨_, hash_of_fuel t mem1 s1 n fuel1 h1 hf1, ?_⟩
  rw [hash_of_fuel t mem2 s2 n fuel2 h2 hf2, cstrBytes_congr mem1 mem2 n s1 s2 heq]

theorem hash_deterministic_witness :
    IsCStr (memOf 0 [97, 98]) 0 2 ∧ IsCStr (memOf 5 [97, 98, 0, 99]) 5 2 ∧
    (∀ i, i < 2 → memOf 0 [97, 98] (0 + i) = memOf 5 [97, 98, 0, 99] (5 + i)) ∧
    2 + 1 ≤ 3 ∧ 2 + 1 ≤ 4 ∧
    ∃ v, hash lp64 (memOf 0 [97, 98]) 3 0 = some v ∧
      hash lp64 (memOf 5 [97, 98, 0, 99]) 4 5 = some v :=
  ⟨by decide, by decide, by decide, by decide, by decide,
    hash_deterministic lp64 (memOf 0 [97, 98]) (memOf 5 [97, 98, 0, 99]) 0 5 2 3 4
      (by decide) (by decide) (by decide) (by decide) (by decide)⟩

/-- C8: fold step.  For a non-NUL character `c` at address `s` followed by a
string at `s + 1`, `hash` of the whole equals `(hash(rest) XOR c) * 16777619`
reduced modulo `2 ^ w` for a `size_t` of `w` bits, where `c` is the value of the
`char` converted to `size_t`: each character is folded on top of the hash of
the suffix after it, so in last-to-first order.  The converted value is the
character code when `char` is unsigned or the code is below 128. -/
theorem hash_fold_step (t : Target) (mem : Memory) (s n fuel : Nat)
    (hc : mem s ≠ 0) (h : IsCStr mem (s + 1) n) (hf : n + 1 ≤ fuel) :
    (∃ v, hash t mem fuel (s + 1) = some v ∧
      hash t mem (fuel + 1) s =
        some (((v ^^^ charToSize t (mem s)) * 16777619) % 2 ^ t.sizeBits)) ∧
    (t.charSigned = false ∨ (mem s).val < 128 → charToSize t (mem s) = (mem s).val) := by
  refine ⟨⟨_, hash_of_fuel t mem (s + 1) n fuel h hf, ?_⟩, fun hx => ?_⟩
  · rw [hash_succ_of_char t mem fuel s hc, hash_of_fuel t mem (s + 1) n fuel h hf]
    rfl
  · rcases hx with hx | hx
    · exact charToSize_of_unsigned t _ hx
    · exact charToSize_of_lt t _ hx

theorem hash_fold_step_witness :
    memOf 0 [97, 98] 0 ≠ 0 ∧ IsCStr (memOf 0 [97, 98]) (0 + 1) 1 ∧ 1 + 1 ≤ 2 ∧
    ((∃ v, hash lp64 (memOf 0 [97, 98]) 2 (0 + 1) = some v ∧
      hash lp64 (memOf 0 [97, 98]) (2 + 1) 0 =
        some (((v ^^^ charToSize lp64 (memOf 0 [97, 98] 0)) * 16777619) % 2 ^ lp64.sizeBits)) ∧
     (lp64.charSigned = false ∨ (memOf 0 [97, 98] 0).val < 128 →
        charToSize lp64 (memOf 0 [97, 98] 0) = (memOf 0 [97, 98] 0).val)) :=
  ⟨by decide, by decide, by decide,
    hash_fold_step lp64 (memOf 0 [97, 98]) 0 1 2 (by decide) (by decide) (by decide)⟩

/-- C9: the recursive `hash` equals the iterative accumulator loop.  For every
string of `n` characters at `s`, `hash` returns the result of starting the
accumulator at `2166136261` and applying `acc = (acc XOR x) * 16777619` modulo
the `size_t` width while walking from `s[n]`, the terminator of value 0, back
to `s[0]`. -/
theorem hash_eq_hashLoop (t : Target) (mem : Memory) (s n fuel : Nat)
    (h : IsCStr mem s n) (hf : n + 1 ≤ fuel) :
    hash t mem fuel s = some (hashLoop t mem s n) ∧ charToSize t (mem (s + n)) = 0 := by
  refine ⟨?_, ?_⟩
  · rw [hash_of_fuel t mem s n fuel h hf, hashBytes_eq_hashLoop t mem n s h]
  · rw [h.2, charToSize_zero]

theorem hash_eq_hashLoop_witness :
    IsCStr (memOf 0 [97, 98]) 0 2 ∧ 2 + 1 ≤ 3 ∧
    (hash lp64 (memOf 0 [97, 98]) 3 0 = some (hashLoop lp64 (memOf 0 [97, 98]) 0 2) ∧
     charToSize lp64 (memOf 0 [97, 98] (0 + 2)) = 0) :=
  ⟨by decide, by decide, hash_eq_hashLoop lp64 (memOf 0 [97, 98]) 0 2 3 (by decide) (by decide)⟩

/-- C10: the reversed traversal changes the hash values relative to standard
FNV-1a.  On every target the string `"ab"` hashes to a value that differs from
the canonical first-to-last 32-bit FNV-1a hash of `"ab"`, and also from the
canonical hash of `"ab"` with its terminator appended. -/
theorem hash_ab_ne_fnv1a32 (t : Target) :
    IsCStr (memOf 0 [97, 98]) 0 2 ∧ cstrBytes (memOf 0 [97, 98]) 0 2 = [97, 98] ∧
    ∃ v, hash t (memOf 0 [97, 98]) 3 0 = some v ∧
      v ≠ fnv1a32 (cstrBytes (memOf 0 [97, 98]) 0 2) ∧
      v ≠ fnv1a32 (cstrBytes (memOf 0 [97, 98]) 0 2 ++ [0]) := by
  have hs : IsCStr (memOf 0 [97, 98]) 0 2 := by decide
  have hb : cstrBytes (memOf 0 [97, 98]) 0 2 = [97, 98] := by decide
  refine ⟨hs, hb, _, hash_of_fuel t (memOf 0 [97, 98]) 0 2 3 hs (by decide), ?_⟩
  have hmod : hashBytes t (cstrBytes (memOf 0 [97, 98]) 0 2) % 2 ^ 32 = 513390162 := by
    rw [hb]
    simp only [hashBytes]
    rw [foldChar_mod_two_pow_32 t _ 97 (by decide), foldChar_mod_two_pow_32 t _ 98 (by decide),
      foldChar_mod_two_pow_32 t _ 0 (by decide)]
    decide
  rw [hb] at hmod ⊢
  constructor
  · intro he
    rw [he] at hmod
    exact absurd hmod (by decide)
  · intro he
    rw [he] at hmod
    exact absurd hmod (by decide)

/-! ## Facts about the fold step used by the remaining claims -/

theorem two_pow_32_le_size (t : Target) : 2 ^ 32 ≤ 2 ^ t.sizeBits :=
  Nat.pow_le_pow_right (by decide) t.wide

theorem charToSize_lt (t : Target) (c : Byte) : charToSize t c < 2 ^ t.sizeBits := by
  have hw := two_pow_32_le_size t
  have hc := c.isLt
  unfold charToSize
  split <;> omega

theorem charToSize_injective (t : Target) (c1 c2 : Byte)
    (h : charToSize t c1 = charToSize t c2) : c1 = c2 := by
  have hw := two_pow_32_le_size t
  have h1 := c1.isLt
  have h2 := c2.isLt
  apply Fin.ext
  unfold charToSize at h
  cases hs : t.charSigned
  · simpa [hs] using h
  · simp only [hs, Bool.true_and, decide_eq_true_eq] at h
    split at h <;> split at h <;> omega

theorem hashBytes_lt (t : Target) (cs : List Byte) : hashBytes t cs < 2 ^ t.sizeBits := by
  cases cs with
  | nil => exact foldChar_lt t _ _
  | cons c cs => exact foldChar_lt t _ _

/-- Multiplication by the odd constant `16777619` is injective modulo a power
of two. -/
theorem mul_prime_mod_injective (w a b : Nat) (ha : a < 2 ^ w) (hb : b < 2 ^ w)
    (h : a * 16777619 % 2 ^ w = b * 16777619 % 2 ^ w) : a = b := by
  have hco : Nat.Coprime (2 ^ w) 16777619 := Nat.Coprime.pow_left w (by norm_num)
  have hmod : a ≡ b [MOD 2 ^ w] := Nat.ModEq.cancel_right_of_coprime hco h
  have := hmod
  unfold Nat.ModEq at this
  rwa [Nat.mod_eq_of_lt ha, Nat.mod_eq_of_lt hb] at this

/-- One fold step on a fixed accumulator is injective in the character. -/
theorem foldChar_injective (t : Target) (next : Nat) (c1 c2 : Byte)
    (hn : next < 2 ^ t.sizeBits) (h : foldChar t next c1 = foldChar t next c2) : c1 = c2 := by
  have hx : next ^^^ charToSize t c1 = next ^^^ charToSize t c2 :=
    mul_prime_mod_injective t.sizeBits _ _
      (Nat.xor_lt_two_pow hn (charToSize_lt t c1)) (Nat.xor_lt_two_pow hn (charToSize_lt t c2)) h
  exact charToSize_injective t c1 c2 (Nat.xor_right_injective hx)

/-- The conversion of a `char` on a wider `size_t` agrees with the conversion on
a narrower one modulo the narrower width, for the same signedness of `char`. -/
theorem charToSize_mod_of_le (t1 t2 : Target) (hle : t2.sizeBits ≤ t1.sizeBits)
    (hs : t1.charSigned = t2.charSigned) (c : Byte) :
    charToSize t1 c % 2 ^ t2.sizeBits = charToSize t2 c := by
  have hw := two_pow_32_le_size t2
  have hc := c.isLt
  obtain ⟨k, hk⟩ := Nat.pow_dvd_pow 2 hle
  have hpos : 0 < 2 ^ t1.sizeBits := Nat.two_pow_pos _
  have hk0 : k ≠ 0 := by
    rintro rfl
    simp at hk
  obtain ⟨j, rfl⟩ := Nat.exists_eq_succ_of_ne_zero hk0
  rw [Nat.mul_succ] at hk
  unfold charToSize
  rw [← hs]
  split
  · have he : 2 ^ t1.sizeBits - 256 + c.val =
        (2 ^ t2.sizeBits - 256 + c.val) + 2 ^ t2.sizeBits * j := by omega
    rw [he, Nat.add_mul_mod_self_left]
    exact Nat.mod_eq_of_lt (by omega)
  · exact Nat.mod_eq_of_lt (by omega)

/-- The low bits of one fold step only depend on the low bits of the
accumulator. -/
theorem foldChar_mod_of_le (t1 t2 : Target) (hle : t2.sizeBits ≤ t1.sizeBits)
    (hs : t1.charSigned = t2.charSigned) (next : Nat) (c : Byte) :
    foldChar t1 next c % 2 ^ t2.sizeBits = foldChar t2 (next % 2 ^ t2.sizeBits) c := by
  have hdvd : 2 ^ t2.sizeBits ∣ 2 ^ t1.sizeBits := Nat.pow_dvd_pow 2 hle
  have hc2 : charToSize t2 c % 2 ^ t2.sizeBits = charToSize t2 c :=
    Nat.mod_eq_of_lt (charToSize_lt t2 c)
  rw [foldChar, Nat.mod_mod_of_dvd _ hdvd, Nat.mul_mod, xor_mod_two_pow,
    charToSize_mod_of_le t1 t2 hle hs c]
  rw [foldChar]
  conv_rhs => rw [Nat.mul_mod, xor_mod_two_pow, Nat.mod_mod, hc2]

theorem hashBytes_mod_of_le (t1 t2 : Target) (hle : t2.sizeBits ≤ t1.sizeBits)
    (hs : t1.charSigned = t2.charSigned) :
    ∀ cs : List Byte, hashBytes t1 cs % 2 ^ t2.sizeBits = hashBytes t2 cs
  | [] => by
    have hb : 2166136261 % 2 ^ t2.sizeBits = 2166136261 :=
      Nat.mod_eq_of_lt (lt_of_lt_of_le (by decide) (two_pow_32_le_size t2))
    simp only [hashBytes]
    rw [foldChar_mod_of_le t1 t2 hle hs, hb]
  | c :: cs => by
    simp only [hashBytes]
    rw [foldChar_mod_of_le t1 t2 hle hs, hashBytes_mod_of_le t1 t2 hle hs cs]

theorem IsCStr.cons {mem : Memory} {s n : Nat} (hc : mem s ≠ 0) (h : IsCStr mem (s + 1) n) :
    IsCStr mem s (n + 1) := by
  refine ⟨fun i hi => ?_, ?_⟩
  · cases i with
    | zero => simpa using hc
    | succ i =>
      have := h.1 i (by omega)
      rwa [show s + 1 + i = s + (i + 1) by omega] at this
  · have := h.2
    rwa [show s + 1 + n = s + (n + 1) by omega] at this

/-! ## The claims on the error stream, the width and the first character -/

/-- C11: on the console variant, `die` appends to the standard error stream
exactly the characters of the message followed by one newline, leaves the
standard output (and the message boxes) as they were, and exits with status 1
only after the write: the state at exit is the state after the `fprintf`.  The
message is an input that is read only; its characters reach the stream
unaltered. -/
theorem die_console_writes_message_to_stderr (str : List Byte) (w : World) :
    ∃ w2, die Platform.console str w = Outcome.exited w2 1 ∧
      w2.stderr = w.stderr ++ str ++ [10] ∧
      w2.stdout = w.stdout ∧
      w2.dialogs = w.dialogs ∧
      w2 = fprintfStderr str w ∧
      die Platform.console str w = exit 1 (fprintfStderr str w) := by
  refine ⟨fprintfStderr str w, ?_, rfl, rfl, rfl, rfl, ?_⟩ <;>
    simp [die, Outcome.andThen, exit]

/-- C12: width independence of the low 32 bits.  For every string, `hash`
evaluated with a 64-bit `size_t` and reduced modulo `2 ^ 32` equals `hash`
evaluated with a 32-bit `size_t`, for either signedness of `char`: also when
`char` is signed and a character of code at least 128 is sign-extended before
the XOR. -/
theorem hash_low_32_bits_width_independent (t64 t32 : Target) (mem : Memory) (s n fuel : Nat)
    (h64 : t64.sizeBits = 64) (h32 : t32.sizeBits = 32)
    (hs : t64.charSigned = t32.charSigned) (h : IsCStr mem s n) (hf : n + 1 ≤ fuel) :
    ∃ v64 v32, hash t64 mem fuel s = some v64 ∧ hash t32 mem fuel s = some v32 ∧
      v64 % 2 ^ 32 = v32 := by
  refine ⟨_, _, hash_of_fuel t64 mem s n fuel h hf, hash_of_fuel t32 mem s n fuel h hf, ?_⟩
  have hle : t32.sizeBits ≤ t64.sizeBits := by omega
  have := hashBytes_mod_of_le t64 t32 hle hs (cstrBytes mem s n)
  rwa [h32] at this

theorem hash_low_32_bits_width_independent_witness :
    lp64.sizeBits = 64 ∧ ilp32.sizeBits = 32 ∧ lp64.charSigned = ilp32.charSigned ∧
    IsCStr (memOf 0 [200, 97]) 0 2 ∧ 2 + 1 ≤ 3 ∧
    ∃ v64 v32, hash lp64 (memOf 0 [200, 97]) 3 0 = some v64 ∧
      hash ilp32 (memOf 0 [200, 97]) 3 0 = some v32 ∧ v64 % 2 ^ 32 = v32 :=
  ⟨by decide, by decide, by decide, by decide, by decide,
    hash_low_32_bits_width_independent lp64 ilp32 (memOf 0 [200, 97]) 0 2 3
      (by decide) (by decide) (by decide) (by decide) (by decide)⟩

/-- C13: no collision on the first character.  Two strings that start with
distinct non-NUL characters and continue with the same characters hash to
different values, on every target: XOR with the hash of the common suffix and
multiplication by the odd constant `16777619` are injective modulo `2 ^ w`.
With an empty suffix (`n = 0`) this says that `hash` is injective on
single-character strings. -/
theorem hash_first_char_injective (t : Target) (mem1 mem2 : Memory) (s1 s2 n fuel1 fuel2 : Nat)
    (hc1 : mem1 s1 ≠ 0) (hc2 : mem2 s2 ≠ 0) (hne : mem1 s1 ≠ mem2 s2)
    (h1 : IsCStr mem1 (s1 + 1) n) (h2 : IsCStr mem2 (s2 + 1) n)
    (heq : ∀ i, i < n → mem1 (s1 + 1 + i) = mem2 (s2 + 1 + i))
    (hf1 : n + 2 ≤ fuel1) (hf2 : n + 2 ≤ fuel2) :
    ∃ v1 v2, hash t mem1 fuel1 s1 = some v1 ∧ hash t mem2 fuel2 s2 = some v2 ∧ v1 ≠ v2 := by
  refine ⟨_, _, hash_of_fuel t mem1 s1 (n + 1) fuel1 (IsCStr.cons hc1 h1) hf1,
    hash_of_fuel t mem2 s2 (n + 1) fuel2 (IsCStr.cons hc2 h2) hf2, ?_⟩
  simp only [cstrBytes, hashBytes]
  rw [cstrBytes_congr mem1 mem2 n (s1 + 1) (s2 + 1) heq]
  intro he
  exact hne (foldChar_injective t _ _ _ (hashBytes_lt t _) he)

theorem hash_first_char_injective_witness :
    memOf 0 [97, 120] 0 ≠ 0 ∧ memOf 4 [200, 120] 4 ≠ 0 ∧
    memOf 0 [97, 120] 0 ≠ memOf 4 [200, 120] 4 ∧
    IsCStr (memOf 0 [97, 120]) (0 + 1) 1 ∧ IsCStr (memOf 4 [200, 120]) (4 + 1) 1 ∧
    (∀ i, i < 1 → memOf 0 [97, 120] (0 + 1 + i) = memOf 4 [200, 120] (4 + 1 + i)) ∧
    1 + 2 ≤ 3 ∧ 1 + 2 ≤ 3 ∧
    ∃ v1 v2, hash lp64 (memOf 0 [97, 120]) 3 0 = some v1 ∧
      hash lp64 (memOf 4 [200, 120]) 3 4 = some v2 ∧ v1 ≠ v2 :=
  ⟨by decide, by decide, by decide, by decide, by decide, by decide, by decide, by decide,
    hash_first_char_injective lp64 (memOf 0 [97, 120]) (memOf 4 [200, 120]) 0 4 1 3 3
      (by decide) (by decide) (by decide) (by decide) (by decide) (by decide)
      (by decide) (by decide)⟩

end Magog
